import Mathlib

/-!
# History store adapter (`src/core/history-db.js`)

A shallow embedding of the IndexedDB-backed history module.  The module-level
variable `db`, the content of the `history` object store and the outcomes the
storage engine reports for the requests it receives are gathered in one
explicit `World`; every exported async function becomes a total function
`World → Result α × World`, the awaited result paired with the world in which
the promise settles.
-/

namespace HistoryDB

/-! ## Data model -/

/-- A rejected request's `request.error`, identified by a number. -/
abbrev DOMException := Nat

/-- A database connection (`request.result` of an open request), identified by the
number of the open request that produced it: every successful `indexedDB.open`
yields a connection object of its own. -/
abbrev Handle := Nat

/-- A history record: key `id` (the object store's `keyPath`), numeric `timestamp`,
and the remaining caller-defined fields, which the module never inspects. -/
structure HistoryItem where
  id : Nat
  timestamp : Int
  payload : Nat
deriving DecidableEq

/-- Content of the object store `history`: its records in ascending key order, the
order in which the engine iterates them. -/
abbrev Store := List HistoryItem

/-- The store invariant: keys strictly ascending, hence one record per `id`. -/
def keysAscending (s : Store) : Prop :=
  (s.map HistoryItem.id).Pairwise (fun a b => a < b)

instance decidableKeysAscending (s : Store) : Decidable (keysAscending s) := by
  unfold keysAscending
  infer_instance

/-- Outcome of an awaited call: the promise resolves (`ok`) or rejects (`error`). -/
abbrev Result (α : Type) := Except DOMException α

/-- The state the module runs against.
* `db`: the module variable `let db = null`;
* `opened`: how many `indexedDB.open` requests have been issued so far;
* `store`: the records of the object store `history`;
* `faults`: what the engine will answer to the coming requests, in order:
  `none` fires `onsuccess`, `some e` fires `onerror` with `request.error = e`;
  once the list is used up every request succeeds. -/
structure World where
  db : Option Handle
  opened : Nat
  store : Store
  faults : List (Option DOMException)
deriving DecidableEq

/-- The engine reports no error on any coming request. -/
def faultFree (w : World) : Prop := ∀ o ∈ w.faults, o = none

instance decidableFaultFree (w : World) : Decidable (faultFree w) := by
  unfold faultFree
  infer_instance

/-- The engine answers one request: the head of the schedule is consumed. -/
def request (w : World) : Option DOMException × World :=
  match w.faults with
  | [] => (none, w)
  | o :: rest => (o, { w with faults := rest })

/-! ## The storage engine's object store -/

/-- Modelled from the spec: the engine's keyed write `store.put(item)` is browser
code, not repository code.  Spec §3: the collection is keyed by `id`, and a write
with an existing `id` replaces the prior item (upsert); a new key is inserted at its
place in key order. -/
def storePut (item : HistoryItem) : Store → Store
  | [] => [item]
  | x :: xs =>
    if item.id < x.id then item :: x :: xs
    else if item.id = x.id then item :: xs
    else x :: storePut item xs

/-- Modelled from the spec: the engine's `store.delete(id)` removes the record with
that key if there is one and is not an error otherwise (spec §4.1, deleteOne). -/
def storeDelete (id : Nat) (s : Store) : Store :=
  s.filter (fun x => decide (x.id ≠ id))

/-- Modelled from the spec: the engine's `store.clear()` removes every record. -/
def storeClear (_s : Store) : Store := []

/-- Modelled from the spec: the engine's `store.count()`, the number of records. -/
def storeCount (s : Store) : Nat := s.length

/-- Modelled from the spec: the engine's `store.getAll()`, all records in key order. -/
def storeGetAll (s : Store) : List HistoryItem := s

/-! ## `Array.prototype.sort` and `Array.prototype.slice` -/

/-- The comparator of `getAllHistory`: `(a, b) => b.timestamp - a.timestamp`. -/
def compareFn (a b : HistoryItem) : Int := b.timestamp - a.timestamp

/-- Insertion step of the stable sort: `x`, which preceded every element of the
list in the input, goes before the first `y` with `cmp x y ≤ 0`. -/
def sortInsert (cmp : HistoryItem → HistoryItem → Int) (x : HistoryItem) :
    List HistoryItem → List HistoryItem
  | [] => [x]
  | y :: ys => if cmp x y ≤ 0 then x :: y :: ys else y :: sortInsert cmp x ys

/-- Modelled from the spec: the built-in `Array.prototype.sort(cmp)` is not
repository code.  It is a stable sort (spec §8: "stable for ties"); for a consistent
comparator its result is the one computed by stable insertion. -/
def arraySort (cmp : HistoryItem → HistoryItem → Int) : List HistoryItem → List HistoryItem
  | [] => []
  | x :: xs => sortInsert cmp x (arraySort cmp xs)

/-- Where `Array.prototype.slice(start)` begins on an array of length `len`, for an
integer `start`: a negative `start` counts from the end (`max (len + start) 0`), a
non-negative one is capped at `len`. -/
def sliceStart (len : Nat) (start : Int) : Nat :=
  (if start < 0 then max ((len : Int) + start) 0 else min start (len : Int)).toNat

/-- The built-in `Array.prototype.slice(start)`: the elements from `sliceStart` on. -/
def arraySlice (l : List HistoryItem) (start : Int) : List HistoryItem :=
  l.drop (sliceStart l.length start)

/-! ## `initDB` -/

/-- What a call of `initDB` has done when it returns its promise: the promise is
already resolved with `db`, or it waits for the open request the call has issued. -/
inductive InitPromise where
  | resolved (h : Handle)
  | awaiting (req : Nat)
deriving DecidableEq

/-- The synchronous part of `initDB` (the promise executor): if `db` is set, resolve
with it; otherwise call `indexedDB.open` and install the handlers. -/
def initDBCall (w : World) : InitPromise × World :=
  match w.db with
  | some h => (InitPromise.resolved h, w)
  | none => (InitPromise.awaiting w.opened, { w with opened := w.opened + 1 })

/-- The handler `request.onsuccess` of open request `req`: `db = request.result`,
and the promise of the call that issued `req` resolves with it. -/
def openSuccess (req : Nat) (w : World) : Handle × World :=
  (req, { w with db := some req })

/-- Awaited `initDB`: the call, and, when it had to open, the engine's answer to the
open request (`onerror` rejects and leaves `db` as it was). -/
def initDB (w : World) : Result Handle × World :=
  match initDBCall w with
  | (InitPromise.resolved h, w1) => (Except.ok h, w1)
  | (InitPromise.awaiting req, w1) =>
    match request w1 with
    | (some e, w2) => (Except.error e, w2)
    | (none, w2) =>
      match openSuccess req w2 with
      | (h, w3) => (Except.ok h, w3)

/-- An event in the life of the connection: some caller calls `initDB`, or the open
request `req` fires `onsuccess`. -/
inductive Event where
  | call
  | success (req : Nat)
deriving DecidableEq

/-- One event applied to the world. -/
def stepEvent (w : World) : Event → World
  | Event.call => (initDBCall w).2
  | Event.success req => (openSuccess req w).2

/-- A sequence of events applied in order. -/
def runEvents (w : World) (evs : List Event) : World :=
  evs.foldl stepEvent w

/-- The promises handed out by the `initDB` calls of an event sequence, in order. -/
def callPromises : World → List Event → List InitPromise
  | _, [] => []
  | w, Event.call :: evs => (initDBCall w).1 :: callPromises (initDBCall w).2 evs
  | w, Event.success req :: evs => callPromises (openSuccess req w).2 evs

/-! ## The exported operations -/

/-- The part every operation below starts with, used to reason about all of them at
once: await `initDB`, then hand one request on the object store to the engine.
Returns the error that rejects the operation, if any. -/
def connectAndRequest (w : World) : Option DOMException × World :=
  match initDB w with
  | (Except.error e, w1) => (some e, w1)
  | (Except.ok _, w1) => request w1

/-- The shape shared by the five store operations, used to reason about all of them
at once: `connectAndRequest`, and on success the value `f` read from the store and
the update `g` made to it. -/
def transact {α : Type} (f : Store → α) (g : Store → Store) (w : World) : Result α × World :=
  match connectAndRequest w with
  | (some e, w2) => (Except.error e, w2)
  | (none, w2) => (Except.ok (f w2.store), { w2 with store := g w2.store })

/-- `saveHistoryItem(item)`: await `initDB`, then `store.put(item)`. -/
def saveHistoryItem (item : HistoryItem) (w : World) : Result Unit × World :=
  match initDB w with
  | (Except.error e, w1) => (Except.error e, w1)
  | (Except.ok _, w1) =>
    match request w1 with
    | (some e, w2) => (Except.error e, w2)
    | (none, w2) => (Except.ok (), { w2 with store := storePut item w2.store })

/-- `getAllHistory()`: await `initDB`, then `store.getAll()` sorted by the
comparator. -/
def getAllHistory (w : World) : Result (List HistoryItem) × World :=
  match initDB w with
  | (Except.error e, w1) => (Except.error e, w1)
  | (Except.ok _, w1) =>
    match request w1 with
    | (some e, w2) => (Except.error e, w2)
    | (none, w2) => (Except.ok (arraySort compareFn (storeGetAll w2.store)), w2)

/-- `deleteHistoryItem(id)`: await `initDB`, then `store.delete(id)`. -/
def deleteHistoryItem (id : Nat) (w : World) : Result Unit × World :=
  match initDB w with
  | (Except.error e, w1) => (Except.error e, w1)
  | (Except.ok _, w1) =>
    match request w1 with
    | (some e, w2) => (Except.error e, w2)
    | (none, w2) => (Except.ok (), { w2 with store := storeDelete id w2.store })

/-- `clearAllHistory()`: await `initDB`, then `store.clear()`. -/
def clearAllHistory (w : World) : Result Unit × World :=
  match initDB w with
  | (Except.error e, w1) => (Except.error e, w1)
  | (Except.ok _, w1) =>
    match request w1 with
    | (some e, w2) => (Except.error e, w2)
    | (none, w2) => (Except.ok (), { w2 with store := storeClear w2.store })

/-- `getHistoryCount()`: await `initDB`, then `store.count()`. -/
def getHistoryCount (w : World) : Result Nat × World :=
  match initDB w with
  | (Except.error e, w1) => (Except.error e, w1)
  | (Except.ok _, w1) =>
    match request w1 with
    | (some e, w2) => (Except.error e, w2)
    | (none, w2) => (Except.ok (storeCount w2.store), w2)

/-- The loop of `trimHistory`: `for (const item of itemsToDelete) await
deleteHistoryItem(item.id)`; a rejected delete leaves the loop with its error. -/
def deleteLoop : List HistoryItem → World → Result Unit × World
  | [], w => (Except.ok (), w)
  | item :: rest, w =>
    match deleteHistoryItem item.id w with
    | (Except.error e, w1) => (Except.error e, w1)
    | (Except.ok _, w1) => deleteLoop rest w1

/-- `trimHistory(maxCount)` for an integer `maxCount`. -/
def trimHistory (maxCount : Int) (w : World) : Result Unit × World :=
  match getAllHistory w with
  | (Except.error e, w1) => (Except.error e, w1)
  | (Except.ok items, w1) =>
    if (items.length : Int) ≤ maxCount then (Except.ok (), w1)
    else deleteLoop (arraySlice items maxCount) w1

/-- A caller saving the items of a list one after the other, awaiting each call
(`for (const item of items) await saveHistoryItem(item)`). -/
def saveLoop : List HistoryItem → World → Result Unit × World
  | [], w => (Except.ok (), w)
  | item :: rest, w =>
    match saveHistoryItem item w with
    | (Except.error e, w1) => (Except.error e, w1)
    | (Except.ok _, w1) => saveLoop rest w1

/-- A world before the first call: no connection yet, nothing opened. -/
def freshWorld (s : Store) (faults : List (Option DOMException)) : World :=
  { db := none, opened := 0, store := s, faults := faults }


/-! ## The engine's answers -/

theorem request_store (w : World) : (request w).2.store = w.store := by
  unfold request; split <;> rfl

theorem request_db (w : World) : (request w).2.db = w.db := by
  unfold request; split <;> rfl

theorem request_faultFree (w : World) (h : faultFree w) :
    (request w).1 = none ∧ faultFree (request w).2 := by
  unfold request faultFree at *
  split
  · exact ⟨rfl, h⟩
  · rename_i o rest heq
    rw [heq] at h
    exact ⟨h o (List.mem_cons_self _ _), fun x hx => h x (List.mem_cons_of_mem _ hx)⟩

theorem request_cons (w : World) (o : Option DOMException) (rest : List (Option DOMException))
    (h : w.faults = o :: rest) : request w = (o, { w with faults := rest }) := by
  unfold request; rw [h]

theorem initDB_store (w : World) : (initDB w).2.store = w.store := by
  unfold initDB initDBCall openSuccess request
  cases w.db <;> cases hf : w.faults with
  | nil => simp
  | cons o rest => cases o <;> simp

theorem initDB_of_db (w : World) (h : Handle) (hdb : w.db = some h) :
    initDB w = (Except.ok h, w) := by
  unfold initDB initDBCall
  rw [hdb]

theorem initDB_ok_db (w : World) (h : Handle) (hok : (initDB w).1 = Except.ok h) :
    (initDB w).2.db = some h := by
  unfold initDB initDBCall openSuccess request at *
  cases hdb : w.db <;> cases hf : w.faults with
  | nil => simp_all
  | cons o rest => cases o <;> simp_all

theorem initDB_faultFree (w : World) (hw : faultFree w) :
    (∃ h, (initDB w).1 = Except.ok h) ∧ faultFree (initDB w).2 := by
  unfold initDB initDBCall openSuccess request faultFree at *
  cases hdb : w.db <;> cases hf : w.faults with
  | nil => simp_all
  | cons o rest =>
    rw [hf] at hw
    have h1 : o = none := hw o (List.mem_cons_self _ _)
    have h2 : ∀ a ∈ rest, a = none := fun a ha => hw a (List.mem_cons_of_mem _ ha)
    subst h1
    simp
    exact h2

theorem connect_store (w : World) : (connectAndRequest w).2.store = w.store := by
  unfold connectAndRequest
  have h := initDB_store w
  revert h
  generalize initDB w = r
  obtain ⟨res, w1⟩ := r
  intro h
  cases res with
  | error e => exact h
  | ok a => simp only; rw [request_store]; exact h

theorem connect_db (w : World) (hok : (connectAndRequest w).1 = none) :
    ∃ h, (connectAndRequest w).2.db = some h := by
  unfold connectAndRequest at *
  have h := initDB_ok_db w
  revert h hok
  generalize initDB w = r
  obtain ⟨res, w1⟩ := r
  intro hok h
  cases res with
  | error e => simp at hok
  | ok a => exact ⟨a, by simp only; rw [request_db]; exact h a rfl⟩

theorem connect_faultFree (w : World) (hw : faultFree w) :
    (connectAndRequest w).1 = none ∧ faultFree (connectAndRequest w).2 := by
  unfold connectAndRequest
  have key := initDB_faultFree w hw
  revert key
  generalize initDB w = r
  obtain ⟨res, w1⟩ := r
  rintro ⟨⟨h, h1⟩, h2⟩
  simp only at h1
  subst h1
  exact request_faultFree w1 h2

theorem connect_of_db (w : World) (h : Handle) (hdb : w.db = some h) :
    connectAndRequest w = request w := by
  unfold connectAndRequest
  rw [initDB_of_db w h hdb]

/-! ## The shared shape of the operations -/

theorem transact_ok {α : Type} (f : Store → α) (g : Store → Store) (w : World) (a : α)
    (hok : (transact f g w).1 = Except.ok a) :
    a = f w.store ∧ (transact f g w).2.store = g w.store ∧
      ∃ h, (transact f g w).2.db = some h := by
  unfold transact at *
  have hs := connect_store w
  have hd := connect_db w
  revert hok hs hd
  generalize connectAndRequest w = r
  obtain ⟨o, w2⟩ := r
  cases o with
  | some e => intro hok; simp at hok
  | none =>
    intro hok hs hd
    simp only at hs hok ⊢
    rw [hs] at hok ⊢
    exact ⟨(Except.ok.inj hok).symm, rfl, hd rfl⟩

theorem transact_error {α : Type} (f : Store → α) (g : Store → Store) (w : World)
    (e : DOMException) (herr : (transact f g w).1 = Except.error e) :
    (transact f g w).2.store = w.store := by
  unfold transact at *
  have hs := connect_store w
  revert herr hs
  generalize connectAndRequest w = r
  obtain ⟨o, w2⟩ := r
  cases o with
  | some e => intro _ hs; exact hs
  | none => intro herr; simp at herr

theorem transact_faultFree {α : Type} (f : Store → α) (g : Store → Store) (w : World)
    (hw : faultFree w) :
    (transact f g w).1 = Except.ok (f w.store) ∧ faultFree (transact f g w).2 := by
  unfold transact
  have hs := connect_store w
  have hf := connect_faultFree w hw
  revert hs hf
  generalize connectAndRequest w = r
  obtain ⟨o, w2⟩ := r
  rintro hs ⟨h1, h2⟩
  simp only at h1 hs
  subst h1
  simp only
  rw [hs]
  exact ⟨rfl, h2⟩

theorem transact_success {α : Type} (f : Store → α) (g : Store → Store) (w : World)
    (h : Handle) (rest : List (Option DOMException)) (hdb : w.db = some h)
    (hf : w.faults = none :: rest) :
    transact f g w = (Except.ok (f w.store), { w with store := g w.store, faults := rest }) := by
  unfold transact
  rw [connect_of_db w h hdb, request_cons w none rest hf]

theorem transact_failure {α : Type} (f : Store → α) (g : Store → Store) (w : World)
    (h : Handle) (e : DOMException) (rest : List (Option DOMException)) (hdb : w.db = some h)
    (hf : w.faults = some e :: rest) :
    transact f g w = (Except.error e, { w with faults := rest }) := by
  unfold transact
  rw [connect_of_db w h hdb, request_cons w (some e) rest hf]

theorem saveHistoryItem_eq (item : HistoryItem) (w : World) :
    saveHistoryItem item w = transact (fun _ => ()) (storePut item) w := by
  unfold saveHistoryItem transact connectAndRequest
  generalize initDB w = r
  obtain ⟨res, w1⟩ := r
  cases res with
  | error e => rfl
  | ok a => rfl

theorem getAllHistory_eq (w : World) :
    getAllHistory w = transact (fun s => arraySort compareFn (storeGetAll s)) (fun s => s) w := by
  unfold getAllHistory transact connectAndRequest
  generalize initDB w = r
  obtain ⟨res, w1⟩ := r
  cases res with
  | error e => rfl
  | ok a => rfl

theorem deleteHistoryItem_eq (id : Nat) (w : World) :
    deleteHistoryItem id w = transact (fun _ => ()) (storeDelete id) w := by
  unfold deleteHistoryItem transact connectAndRequest
  generalize initDB w = r
  obtain ⟨res, w1⟩ := r
  cases res with
  | error e => rfl
  | ok a => rfl

theorem clearAllHistory_eq (w : World) :
    clearAllHistory w = transact (fun _ => ()) storeClear w := by
  unfold clearAllHistory transact connectAndRequest
  generalize initDB w = r
  obtain ⟨res, w1⟩ := r
  cases res with
  | error e => rfl
  | ok a => rfl

theorem getHistoryCount_eq (w : World) :
    getHistoryCount w = transact storeCount (fun s => s) w := by
  unfold getHistoryCount transact connectAndRequest
  generalize initDB w = r
  obtain ⟨res, w1⟩ := r
  cases res with
  | error e => rfl
  | ok a => rfl

/-! ## The sort -/

theorem compareFn_le_zero (a b : HistoryItem) : compareFn a b ≤ 0 ↔ b.timestamp ≤ a.timestamp := by
  unfold compareFn
  omega

theorem sortInsert_perm (cmp : HistoryItem → HistoryItem → Int) (x : HistoryItem)
    (l : List HistoryItem) : (sortInsert cmp x l).Perm (x :: l) := by
  induction l with
  | nil => exact List.Perm.refl _
  | cons y ys ih =>
    unfold sortInsert
    split
    · exact List.Perm.refl _
    · exact (ih.cons y).trans (List.Perm.swap x y ys)

theorem arraySort_perm (cmp : HistoryItem → HistoryItem → Int) (l : List HistoryItem) :
    (arraySort cmp l).Perm l := by
  induction l with
  | nil => exact List.Perm.refl _
  | cons x xs ih =>
    unfold arraySort
    exact (sortInsert_perm cmp x _).trans (ih.cons x)

theorem sortInsert_descending (x : HistoryItem) (l : List HistoryItem)
    (hl : l.Pairwise (fun a b => b.timestamp ≤ a.timestamp)) :
    (sortInsert compareFn x l).Pairwise (fun a b => b.timestamp ≤ a.timestamp) := by
  induction l with
  | nil => simp [sortInsert]
  | cons y ys ih =>
    rw [List.pairwise_cons] at hl
    unfold sortInsert
    split
    · rename_i hxy
      rw [compareFn_le_zero] at hxy
      refine List.Pairwise.cons ?_ (List.Pairwise.cons hl.1 hl.2)
      intro z hz
      rcases List.mem_cons.1 hz with rfl | hz
      · exact hxy
      · exact le_trans (hl.1 z hz) hxy
    · rename_i hxy
      rw [compareFn_le_zero] at hxy
      refine List.Pairwise.cons ?_ (ih hl.2)
      intro z hz
      rcases List.mem_cons.1 ((sortInsert_perm compareFn x ys).mem_iff.1 hz) with rfl | hz
      · omega
      · exact hl.1 z hz

theorem arraySort_descending (l : List HistoryItem) :
    (arraySort compareFn l).Pairwise (fun a b => b.timestamp ≤ a.timestamp) := by
  induction l with
  | nil => exact List.Pairwise.nil
  | cons x xs ih =>
    unfold arraySort
    exact sortInsert_descending x _ ih

theorem sortInsert_filter (t : Int) (x : HistoryItem) (l : List HistoryItem) :
    (sortInsert compareFn x l).filter (fun a => decide (a.timestamp = t)) =
      (x :: l).filter (fun a => decide (a.timestamp = t)) := by
  induction l with
  | nil => rfl
  | cons y ys ih =>
    unfold sortInsert
    split
    · rfl
    · rename_i hxy
      rw [compareFn_le_zero] at hxy
      rw [List.filter_cons, ih]
      by_cases hy : y.timestamp = t
      · have hx : ¬ x.timestamp = t := by omega
        simp [List.filter_cons, hy, hx]
      · simp [List.filter_cons, hy]

theorem arraySort_stable (t : Int) (l : List HistoryItem) :
    (arraySort compareFn l).filter (fun a => decide (a.timestamp = t)) =
      l.filter (fun a => decide (a.timestamp = t)) := by
  induction l with
  | nil => rfl
  | cons x xs ih =>
    unfold arraySort
    rw [sortInsert_filter, List.filter_cons, List.filter_cons, ih]

/-! ## The object store -/

theorem keysAscending_nodup (s : Store) (h : keysAscending s) :
    (s.map HistoryItem.id).Nodup := by
  unfold keysAscending at h
  exact h.imp (fun hab => Nat.ne_of_lt hab)

theorem keysAscending_tail (x : HistoryItem) (xs : Store) (h : keysAscending (x :: xs)) :
    keysAscending xs := by
  unfold keysAscending at *
  rw [List.map_cons, List.pairwise_cons] at h
  exact h.2

theorem keysAscending_head (x : HistoryItem) (xs : Store) (h : keysAscending (x :: xs)) :
    ∀ y ∈ xs, x.id < y.id := by
  unfold keysAscending at h
  rw [List.map_cons, List.pairwise_cons] at h
  intro y hy
  exact h.1 y.id (List.mem_map_of_mem _ hy)

theorem mem_storePut (item : HistoryItem) (s : Store) (i : Nat) :
    i ∈ (storePut item s).map HistoryItem.id ↔ i = item.id ∨ i ∈ s.map HistoryItem.id := by
  induction s with
  | nil => simp [storePut]
  | cons x xs ih =>
    unfold storePut
    split
    · simp
    · split
      · rename_i heq
        simp [heq]
      · rw [List.map_cons, List.mem_cons, ih, List.map_cons, List.mem_cons]
        tauto

theorem storePut_keysAscending (item : HistoryItem) (s : Store) (h : keysAscending s) :
    keysAscending (storePut item s) := by
  induction s with
  | nil => simp [storePut, keysAscending]
  | cons x xs ih =>
    have hhead := keysAscending_head x xs h
    have htail := keysAscending_tail x xs h
    unfold storePut
    split
    · rename_i hlt
      unfold keysAscending at *
      rw [List.map_cons, List.pairwise_cons]
      refine ⟨?_, h⟩
      intro i hi
      rcases List.mem_map.1 hi with ⟨y, hy, rfl⟩
      rcases List.mem_cons.1 hy with rfl | hy
      · exact hlt
      · exact lt_trans hlt (hhead y hy)
    · split
      · rename_i heq
        unfold keysAscending at *
        rw [List.map_cons, List.pairwise_cons] at *
        rw [heq]
        exact h
      · rename_i hnlt hne
        have ih2 := ih htail
        unfold keysAscending at *
        rw [List.map_cons, List.pairwise_cons]
        refine ⟨?_, ih2⟩
        intro i hi
        rcases (mem_storePut item xs i).1 hi with rfl | hi
        · omega
        · rcases List.mem_map.1 hi with ⟨y, hy, rfl⟩
          exact hhead y hy

theorem storePut_replace (item : HistoryItem) (s : Store) (h : keysAscending s)
    (hmem : item.id ∈ s.map HistoryItem.id) :
    storePut item s = s.map (fun x => if x.id = item.id then item else x) := by
  induction s with
  | nil => simp at hmem
  | cons x xs ih =>
    have hhead := keysAscending_head x xs h
    have htail := keysAscending_tail x xs h
    unfold storePut
    split
    · rename_i hlt
      exfalso
      rcases List.mem_map.1 hmem with ⟨y, hy, hyid⟩
      rcases List.mem_cons.1 hy with rfl | hy
      · omega
      · have := hhead y hy
        omega
    · split
      · rename_i heq
        rw [List.map_cons, if_pos heq.symm]
        congr 1
        have hid : ∀ y ∈ xs, (fun x => if x.id = item.id then item else x) y = id y := by
          intro y hy
          have hlt := hhead y hy
          have hne : ¬ y.id = item.id := by omega
          simp [hne]
        rw [List.map_congr_left hid, List.map_id]
      · rename_i hnlt hne
        rw [List.map_cons, if_neg (fun hx => hne hx.symm)]
        congr 1
        apply ih htail
        rw [List.map_cons, List.mem_cons] at hmem
        rcases hmem with hm | hm
        · exact absurd hm hne
        · exact hm

theorem storeDelete_of_not_mem (id : Nat) (s : Store) (h : id ∉ s.map HistoryItem.id) :
    storeDelete id s = s := by
  unfold storeDelete
  rw [List.filter_eq_self]
  intro x hx
  simp only [ne_eq, decide_not, Bool.not_eq_true', decide_eq_false_iff_not]
  intro hid
  exact h (hid ▸ List.mem_map_of_mem _ hx)

theorem not_mem_storeDelete (id : Nat) (s : Store) :
    id ∉ (storeDelete id s).map HistoryItem.id := by
  unfold storeDelete
  intro h
  rcases List.mem_map.1 h with ⟨y, hy, hyid⟩
  have := (List.mem_filter.1 hy).2
  simp [hyid] at this

theorem storeDelete_eq_erase (s : Store) (x : HistoryItem) (hwf : keysAscending s)
    (hx : x ∈ s) : storeDelete x.id s = s.erase x := by
  induction s with
  | nil => simp at hx
  | cons y ys ih =>
    have hhead := keysAscending_head y ys hwf
    have htail := keysAscending_tail y ys hwf
    by_cases hyx : y = x
    · subst hyx
      rw [List.erase_cons_head]
      have hnot : y.id ∉ ys.map HistoryItem.id := by
        intro hm
        rcases List.mem_map.1 hm with ⟨z, hz, hzid⟩
        have := hhead z hz
        omega
      have := storeDelete_of_not_mem y.id ys hnot
      unfold storeDelete at *
      rw [List.filter_cons, if_neg (by simp), this]
    · have hxys : x ∈ ys := by
        rcases List.mem_cons.1 hx with h | h
        · exact absurd h.symm hyx
        · exact h
      have hlt := hhead x hxys
      have hne : y.id ≠ x.id := by omega
      have ih2 := ih htail hxys
      rw [List.erase_cons_tail (by simpa using hyx)]
      unfold storeDelete at *
      rw [List.filter_cons, if_pos (by simpa using hne), ih2]

theorem storeDelete_keysAscending (id : Nat) (s : Store) (h : keysAscending s) :
    keysAscending (storeDelete id s) := by
  unfold keysAscending storeDelete at *
  exact h.sublist ((List.filter_sublist s).map _)

/-! ## Reading: `getAllHistory` and `getHistoryCount` -/

theorem getHistoryCount_ok (w : World) (n : Nat) (h : (getHistoryCount w).1 = Except.ok n) :
    n = w.store.length ∧ (getHistoryCount w).2.store = w.store := by
  rw [getHistoryCount_eq] at h ⊢
  obtain ⟨h1, h2, _⟩ := transact_ok _ _ w n h
  exact ⟨h1, h2⟩

theorem getAllHistory_ok (w : World) (items : List HistoryItem)
    (h : (getAllHistory w).1 = Except.ok items) :
    items = arraySort compareFn w.store ∧ (getAllHistory w).2.store = w.store ∧
      ∃ c, (getAllHistory w).2.db = some c := by
  rw [getAllHistory_eq] at h ⊢
  exact transact_ok _ _ w items h

/-- C2: whenever `getAllHistory` resolves, its list is a permutation of the stored
items (so its length is what `getHistoryCount` reports, before or after the call, and
the store is left as it was), timestamps never increase along the list, and for every
timestamp the items carrying it appear in the order the store returned them.  With
an engine that reports no error the call does resolve, with the sorted `getAll`. -/
theorem getAllHistory_sorted_permutation (w : World) :
    (faultFree w → (getAllHistory w).1 = Except.ok (arraySort compareFn w.store)) ∧
    ∀ items, (getAllHistory w).1 = Except.ok items →
      items.Perm w.store ∧
      (getAllHistory w).2.store = w.store ∧
      (∀ n, (getHistoryCount w).1 = Except.ok n → items.length = n) ∧
      (∀ n, (getHistoryCount (getAllHistory w).2).1 = Except.ok n → items.length = n) ∧
      items.Pairwise (fun a b => b.timestamp ≤ a.timestamp) ∧
      ∀ t, items.filter (fun a => decide (a.timestamp = t)) =
        w.store.filter (fun a => decide (a.timestamp = t)) := by
  refine ⟨fun hw => ?_, fun items hok => ?_⟩
  · rw [getAllHistory_eq]
    exact (transact_faultFree _ _ w hw).1
  · obtain ⟨hitems, hstore, _⟩ := getAllHistory_ok w items hok
    subst hitems
    have hperm := arraySort_perm compareFn w.store
    refine ⟨hperm, hstore, ?_, ?_, arraySort_descending w.store,
      fun t => arraySort_stable t w.store⟩
    · intro n hn
      rw [(getHistoryCount_ok w n hn).1]
      exact hperm.length_eq
    · intro n hn
      rw [(getHistoryCount_ok _ n hn).1, hstore]
      exact hperm.length_eq

theorem getAllHistory_sorted_permutation_witness :
    (getAllHistory (freshWorld [⟨1, 5, 0⟩, ⟨2, 9, 0⟩, ⟨3, 5, 1⟩] [])).1 =
        Except.ok [⟨2, 9, 0⟩, ⟨1, 5, 0⟩, ⟨3, 5, 1⟩] ∧
      List.Perm [(⟨2, 9, 0⟩ : HistoryItem), ⟨1, 5, 0⟩, ⟨3, 5, 1⟩]
        (freshWorld [⟨1, 5, 0⟩, ⟨2, 9, 0⟩, ⟨3, 5, 1⟩] []).store ∧
      List.Pairwise (fun a b => b.timestamp ≤ a.timestamp)
        [(⟨2, 9, 0⟩ : HistoryItem), ⟨1, 5, 0⟩, ⟨3, 5, 1⟩] :=
  ⟨rfl,
   ((getAllHistory_sorted_permutation
      (freshWorld [⟨1, 5, 0⟩, ⟨2, 9, 0⟩, ⟨3, 5, 1⟩] [])).2 _ rfl).1,
   ((getAllHistory_sorted_permutation
      (freshWorld [⟨1, 5, 0⟩, ⟨2, 9, 0⟩, ⟨3, 5, 1⟩] [])).2 _ rfl).2.2.2.2.1⟩

/-! ## Writing: `saveHistoryItem`, `deleteHistoryItem`, `clearAllHistory` -/

theorem saveHistoryItem_ok (item : HistoryItem) (w : World)
    (h : (saveHistoryItem item w).1 = Except.ok ()) :
    (saveHistoryItem item w).2.store = storePut item w.store ∧
      ∃ c, (saveHistoryItem item w).2.db = some c := by
  rw [saveHistoryItem_eq] at h ⊢
  exact (transact_ok _ _ w () h).2

theorem deleteHistoryItem_ok (id : Nat) (w : World)
    (h : (deleteHistoryItem id w).1 = Except.ok ()) :
    (deleteHistoryItem id w).2.store = storeDelete id w.store ∧
      ∃ c, (deleteHistoryItem id w).2.db = some c := by
  rw [deleteHistoryItem_eq] at h ⊢
  exact (transact_ok _ _ w () h).2

theorem deleteHistoryItem_error (id : Nat) (w : World) (e : DOMException)
    (h : (deleteHistoryItem id w).1 = Except.error e) :
    (deleteHistoryItem id w).2.store = w.store := by
  rw [deleteHistoryItem_eq] at h ⊢
  exact transact_error _ _ w e h

theorem clearAllHistory_ok (w : World) (h : (clearAllHistory w).1 = Except.ok ()) :
    (clearAllHistory w).2.store = [] := by
  rw [clearAllHistory_eq] at h ⊢
  exact (transact_ok _ _ w () h).2.1

/-- C3: saving an item whose `id` is already stored resolves when the engine reports
no error, and whenever it resolves the store is the old one with the record of that
`id` replaced in place by the new item: the new item is stored, every record with
another `id` is still stored, and `getHistoryCount` reports the same number before
and after. -/
theorem saveHistoryItem_existing_id (w : World) (item : HistoryItem)
    (hwf : keysAscending w.store) (hmem : item.id ∈ w.store.map HistoryItem.id) :
    (faultFree w → (saveHistoryItem item w).1 = Except.ok ()) ∧
    ((saveHistoryItem item w).1 = Except.ok () →
      (saveHistoryItem item w).2.store =
          w.store.map (fun x => if x.id = item.id then item else x) ∧
      item ∈ (saveHistoryItem item w).2.store ∧
      (∀ x ∈ w.store, x.id ≠ item.id → x ∈ (saveHistoryItem item w).2.store) ∧
      (∀ x ∈ (saveHistoryItem item w).2.store, x = item ∨ (x ∈ w.store ∧ x.id ≠ item.id)) ∧
      ∀ n m, (getHistoryCount w).1 = Except.ok n →
        (getHistoryCount (saveHistoryItem item w).2).1 = Except.ok m → m = n) := by
  refine ⟨fun hw => ?_, fun hok => ?_⟩
  · rw [saveHistoryItem_eq]
    exact (transact_faultFree _ _ w hw).1
  · have hstore := (saveHistoryItem_ok item w hok).1
    rw [storePut_replace item w.store hwf hmem] at hstore
    refine ⟨hstore, ?_, ?_, ?_, ?_⟩
    · rw [hstore]
      rcases List.mem_map.1 hmem with ⟨y, hy, hyid⟩
      exact List.mem_map.2 ⟨y, hy, by simp [hyid]⟩
    · intro x hx hne
      rw [hstore]
      exact List.mem_map.2 ⟨x, hx, by simp [hne]⟩
    · intro x hx
      rw [hstore] at hx
      rcases List.mem_map.1 hx with ⟨y, hy, hyx⟩
      by_cases hid : y.id = item.id
      · left
        rw [← hyx]
        simp [hid]
      · right
        have : x = y := by rw [← hyx]; simp [hid]
        subst this
        exact ⟨hy, hid⟩
    · intro n m hn hm
      rw [(getHistoryCount_ok w n hn).1, (getHistoryCount_ok _ m hm).1, hstore,
        List.length_map]

theorem saveHistoryItem_existing_id_witness :
    (saveHistoryItem ⟨2, 7, 4⟩ (freshWorld [⟨1, 5, 0⟩, ⟨2, 9, 0⟩, ⟨3, 5, 1⟩] [])).2.store =
      [⟨1, 5, 0⟩, ⟨2, 7, 4⟩, ⟨3, 5, 1⟩] :=
  ((saveHistoryItem_existing_id (freshWorld [⟨1, 5, 0⟩, ⟨2, 9, 0⟩, ⟨3, 5, 1⟩] []) ⟨2, 7, 4⟩
    (by decide) (by decide)).2 rfl).1

/-- C5: `deleteHistoryItem` resolves whenever the engine reports no error, whether or
not the `id` is stored.  For an `id` that no stored item has, the store is left
unchanged (resolved or not), so `getHistoryCount` reports the same number before and
after.  For the `id` of a stored item `x`, a resolved delete removes `x` and nothing
else.  After a resolved delete, deleting the same `id` again changes nothing. -/
theorem deleteHistoryItem_idempotent (w : World) (id : Nat) (hwf : keysAscending w.store) :
    (faultFree w → (deleteHistoryItem id w).1 = Except.ok () ∧
      (deleteHistoryItem id (deleteHistoryItem id w).2).1 = Except.ok ()) ∧
    (id ∉ w.store.map HistoryItem.id →
      (deleteHistoryItem id w).2.store = w.store ∧
      ∀ n m, (getHistoryCount w).1 = Except.ok n →
        (getHistoryCount (deleteHistoryItem id w).2).1 = Except.ok m → m = n) ∧
    (∀ x ∈ w.store, x.id = id → (deleteHistoryItem id w).1 = Except.ok () →
      (deleteHistoryItem id w).2.store = w.store.erase x ∧
      (deleteHistoryItem id w).2.store.length + 1 = w.store.length ∧
      ∀ y, y ∈ (deleteHistoryItem id w).2.store ↔ y ∈ w.store ∧ y ≠ x) ∧
    ((deleteHistoryItem id w).1 = Except.ok () →
      (deleteHistoryItem id (deleteHistoryItem id w).2).2.store =
        (deleteHistoryItem id w).2.store) := by
  refine ⟨fun hw => ?_, fun habsent => ?_, fun x hx hxid hok => ?_, fun hok => ?_⟩
  · rw [deleteHistoryItem_eq]
    obtain ⟨h1, h2⟩ := transact_faultFree (fun _ => ()) (storeDelete id) w hw
    refine ⟨h1, ?_⟩
    rw [deleteHistoryItem_eq]
    exact (transact_faultFree (fun _ => ()) (storeDelete id) _ h2).1
  · have hstore : (deleteHistoryItem id w).2.store = w.store := by
      cases hres : (deleteHistoryItem id w).1 with
      | error e => exact deleteHistoryItem_error id w e hres
      | ok u =>
        rw [(deleteHistoryItem_ok id w hres).1]
        exact storeDelete_of_not_mem id w.store habsent
    refine ⟨hstore, fun n m hn hm => ?_⟩
    rw [(getHistoryCount_ok w n hn).1, (getHistoryCount_ok _ m hm).1, hstore]
  · have hstore := (deleteHistoryItem_ok id w hok).1
    subst hxid
    rw [storeDelete_eq_erase w.store x hwf hx] at hstore
    have hnodup : w.store.Nodup := List.Nodup.of_map _ (keysAscending_nodup w.store hwf)
    refine ⟨hstore, ?_, fun y => ?_⟩
    · rw [hstore, List.length_erase_of_mem hx]
      have := List.length_pos_of_mem hx
      omega
    · rw [hstore, hnodup.mem_erase_iff]
      tauto
  · have hstore := (deleteHistoryItem_ok id w hok).1
    cases hres : (deleteHistoryItem id (deleteHistoryItem id w).2).1 with
    | error e => exact deleteHistoryItem_error id _ e hres
    | ok u =>
      rw [(deleteHistoryItem_ok id _ hres).1]
      apply storeDelete_of_not_mem
      rw [hstore]
      exact not_mem_storeDelete id w.store

theorem deleteHistoryItem_idempotent_witness :
    (deleteHistoryItem 7 (freshWorld [⟨1, 5, 0⟩, ⟨2, 9, 0⟩, ⟨3, 5, 1⟩] [])).1 = Except.ok () ∧
      (deleteHistoryItem 7 (freshWorld [⟨1, 5, 0⟩, ⟨2, 9, 0⟩, ⟨3, 5, 1⟩] [])).2.store =
        [⟨1, 5, 0⟩, ⟨2, 9, 0⟩, ⟨3, 5, 1⟩] ∧
      (deleteHistoryItem 2 (freshWorld [⟨1, 5, 0⟩, ⟨2, 9, 0⟩, ⟨3, 5, 1⟩] [])).2.store =
        [⟨1, 5, 0⟩, ⟨3, 5, 1⟩] :=
  ⟨((deleteHistoryItem_idempotent (freshWorld [⟨1, 5, 0⟩, ⟨2, 9, 0⟩, ⟨3, 5, 1⟩] []) 7
      (by decide)).1 (by decide)).1,
   ((deleteHistoryItem_idempotent (freshWorld [⟨1, 5, 0⟩, ⟨2, 9, 0⟩, ⟨3, 5, 1⟩] []) 7
      (by decide)).2.1 (by decide)).1,
   ((deleteHistoryItem_idempotent (freshWorld [⟨1, 5, 0⟩, ⟨2, 9, 0⟩, ⟨3, 5, 1⟩] []) 2
      (by decide)).2.2.1 ⟨2, 9, 0⟩ (by decide) rfl rfl).1⟩

/-- C8: with an engine that reports no error, `clearAllHistory` resolves, a following
`getHistoryCount` resolves with 0 and a following `getAllHistory` resolves with the
empty list.  Whatever the engine does later, after a resolved `clearAllHistory` a
`getHistoryCount` that resolves yields 0 and a `getAllHistory` that resolves, right
away or after the count, yields the empty list. -/
theorem clearAllHistory_then_count (w : World) :
    (faultFree w →
      (clearAllHistory w).1 = Except.ok () ∧
      (getHistoryCount (clearAllHistory w).2).1 = Except.ok 0 ∧
      (getAllHistory (getHistoryCount (clearAllHistory w).2).2).1 = Except.ok []) ∧
    ((clearAllHistory w).1 = Except.ok () →
      (∀ n, (getHistoryCount (clearAllHistory w).2).1 = Except.ok n → n = 0) ∧
      (∀ items, (getAllHistory (clearAllHistory w).2).1 = Except.ok items → items = []) ∧
      (∀ n items, (getHistoryCount (clearAllHistory w).2).1 = Except.ok n →
        (getAllHistory (getHistoryCount (clearAllHistory w).2).2).1 = Except.ok items →
        items = [])) := by
  refine ⟨fun hw => ?_, fun hok => ?_⟩
  · have h1 := transact_faultFree (fun _ => ()) storeClear w hw
    rw [← clearAllHistory_eq] at h1
    have hs := clearAllHistory_ok w h1.1
    have h2 := transact_faultFree storeCount (fun s => s) _ h1.2
    rw [← getHistoryCount_eq] at h2
    have hs2 := (getHistoryCount_ok _ _ h2.1).2
    have h3 := transact_faultFree (fun s => arraySort compareFn (storeGetAll s)) (fun s => s)
      _ h2.2
    rw [← getAllHistory_eq] at h3
    refine ⟨h1.1, ?_, ?_⟩
    · rw [h2.1, hs]; rfl
    · rw [h3.1, hs2, hs]; rfl
  · have hs := clearAllHistory_ok w hok
    refine ⟨fun n hn => ?_, fun items hi => ?_, fun n items hn hi => ?_⟩
    · rw [(getHistoryCount_ok _ n hn).1, hs]; rfl
    · rw [(getAllHistory_ok _ items hi).1, hs]; rfl
    · rw [(getAllHistory_ok _ items hi).1, (getHistoryCount_ok _ n hn).2, hs]; rfl

theorem clearAllHistory_then_count_witness :
    (getHistoryCount (clearAllHistory
      (freshWorld [⟨1, 5, 0⟩, ⟨2, 9, 0⟩, ⟨3, 5, 1⟩] [])).2).1 = Except.ok 0 :=
  ((clearAllHistory_then_count (freshWorld [⟨1, 5, 0⟩, ⟨2, 9, 0⟩, ⟨3, 5, 1⟩] [])).1
    (by decide)).2.1

/-! ## Sequences of saves -/

theorem saveLoop_cons_ok (item : HistoryItem) (rest : List HistoryItem) (w : World)
    (h : (saveHistoryItem item w).1 = Except.ok ()) :
    saveLoop (item :: rest) w = saveLoop rest (saveHistoryItem item w).2 := by
  rw [saveLoop]
  revert h
  generalize saveHistoryItem item w = r
  obtain ⟨res, w1⟩ := r
  intro h
  simp only at h
  subst h
  rfl

theorem saveLoop_cons_error (item : HistoryItem) (rest : List HistoryItem) (w : World)
    (e : DOMException) (h : (saveHistoryItem item w).1 = Except.error e) :
    saveLoop (item :: rest) w = (Except.error e, (saveHistoryItem item w).2) := by
  rw [saveLoop]
  revert h
  generalize saveHistoryItem item w = r
  obtain ⟨res, w1⟩ := r
  intro h
  simp only at h
  subst h
  rfl

theorem saveLoop_faultFree (items : List HistoryItem) (w : World) (hw : faultFree w) :
    (saveLoop items w).1 = Except.ok () ∧ faultFree (saveLoop items w).2 := by
  induction items generalizing w with
  | nil => exact ⟨rfl, hw⟩
  | cons item rest ih =>
    have h := transact_faultFree (fun _ => ()) (storePut item) w hw
    rw [← saveHistoryItem_eq] at h
    rw [saveLoop_cons_ok item rest w h.1]
    exact ih _ h.2

theorem saveLoop_ok (items : List HistoryItem) (w : World)
    (hok : (saveLoop items w).1 = Except.ok ()) (hwf : keysAscending w.store) :
    keysAscending (saveLoop items w).2.store ∧
      ∀ i, i ∈ (saveLoop items w).2.store.map HistoryItem.id ↔
        i ∈ w.store.map HistoryItem.id ∨ i ∈ items.map HistoryItem.id := by
  induction items generalizing w with
  | nil => exact ⟨hwf, fun i => by simp [saveLoop]⟩
  | cons item rest ih =>
    cases hres : (saveHistoryItem item w).1 with
    | error e =>
      rw [saveLoop_cons_error item rest w e hres] at hok
      simp at hok
    | ok u =>
      rw [saveLoop_cons_ok item rest w hres] at hok ⊢
      have hs := (saveHistoryItem_ok item w hres).1
      have hwf1 : keysAscending (saveHistoryItem item w).2.store := by
        rw [hs]
        exact storePut_keysAscending item w.store hwf
      obtain ⟨h1, h2⟩ := ih _ hok hwf1
      refine ⟨h1, fun i => ?_⟩
      rw [h2, hs, mem_storePut, List.map_cons, List.mem_cons]
      tauto

/-- C4: starting from an empty store, a sequence of awaited `saveHistoryItem` calls
that all resolve leaves `getHistoryCount` equal to the number of distinct ids among
the saved items, which is the length of the sequence when its ids are pairwise
distinct.  With an engine that reports no error all the calls and the count
resolve. -/
theorem saveLoop_count_distinct_ids (items : List HistoryItem) (w : World)
    (hempty : w.store = []) :
    (faultFree w →
      (saveLoop items w).1 = Except.ok () ∧
      (getHistoryCount (saveLoop items w).2).1 =
        Except.ok (items.map HistoryItem.id).toFinset.card) ∧
    ((saveLoop items w).1 = Except.ok () →
      ∀ n, (getHistoryCount (saveLoop items w).2).1 = Except.ok n →
        n = (items.map HistoryItem.id).toFinset.card ∧
        ((items.map HistoryItem.id).Nodup → n = items.length)) := by
  have hwf : keysAscending w.store := by rw [hempty]; simp [keysAscending]
  have key : (saveLoop items w).1 = Except.ok () →
      (saveLoop items w).2.store.length = (items.map HistoryItem.id).toFinset.card := by
    intro hok
    obtain ⟨h1, h2⟩ := saveLoop_ok items w hok hwf
    have hnodup := keysAscending_nodup _ h1
    rw [← List.length_map (saveLoop items w).2.store HistoryItem.id,
      ← List.toFinset_card_of_nodup hnodup]
    congr 1
    ext i
    rw [List.mem_toFinset, List.mem_toFinset, h2, hempty]
    simp
  refine ⟨fun hw => ?_, fun hok n hn => ?_⟩
  · obtain ⟨h1, h2⟩ := saveLoop_faultFree items w hw
    refine ⟨h1, ?_⟩
    have h3 := (transact_faultFree storeCount (fun s => s) _ h2).1
    rw [← getHistoryCount_eq] at h3
    rw [h3, ← key h1]
    rfl
  · have hn1 := (getHistoryCount_ok _ n hn).1
    rw [key hok] at hn1
    refine ⟨hn1, fun hnd => ?_⟩
    rw [hn1, List.toFinset_card_of_nodup hnd, List.length_map]

theorem saveLoop_count_distinct_ids_witness :
    (getHistoryCount (saveLoop [⟨4, 1, 0⟩, ⟨2, 8, 0⟩, ⟨4, 3, 1⟩, ⟨9, 3, 1⟩]
      (freshWorld [] [])).2).1 = Except.ok 3 :=
  ((saveLoop_count_distinct_ids [⟨4, 1, 0⟩, ⟨2, 8, 0⟩, ⟨4, 3, 1⟩, ⟨9, 3, 1⟩]
    (freshWorld [] []) rfl).1 (by decide)).2

/-! ## The delete loop of `trimHistory` -/

theorem deleteLoop_cons_ok (item : HistoryItem) (rest : List HistoryItem) (w : World)
    (h : (deleteHistoryItem item.id w).1 = Except.ok ()) :
    deleteLoop (item :: rest) w = deleteLoop rest (deleteHistoryItem item.id w).2 := by
  rw [deleteLoop]
  revert h
  generalize deleteHistoryItem item.id w = r
  obtain ⟨res, w1⟩ := r
  intro h
  simp only at h
  subst h
  rfl

theorem deleteLoop_cons_error (item : HistoryItem) (rest : List HistoryItem) (w : World)
    (e : DOMException) (h : (deleteHistoryItem item.id w).1 = Except.error e) :
    deleteLoop (item :: rest) w = (Except.error e, (deleteHistoryItem item.id w).2) := by
  rw [deleteLoop]
  revert h
  generalize deleteHistoryItem item.id w = r
  obtain ⟨res, w1⟩ := r
  intro h
  simp only at h
  subst h
  rfl

theorem deleteLoop_faultFree (l : List HistoryItem) (w : World) (hw : faultFree w) :
    (deleteLoop l w).1 = Except.ok () ∧ faultFree (deleteLoop l w).2 := by
  induction l generalizing w with
  | nil => exact ⟨rfl, hw⟩
  | cons item rest ih =>
    have h := transact_faultFree (fun _ => ()) (storeDelete item.id) w hw
    rw [← deleteHistoryItem_eq] at h
    rw [deleteLoop_cons_ok item rest w h.1]
    exact ih _ h.2

theorem filter_storeDelete (id : Nat) (ids : List Nat) (s : Store) :
    (storeDelete id s).filter (fun x => decide (x.id ∉ ids)) =
      s.filter (fun x => decide (x.id ∉ id :: ids)) := by
  unfold storeDelete
  rw [List.filter_filter]
  apply List.filter_congr
  intro x _
  by_cases h1 : x.id = id <;> by_cases h2 : x.id ∈ ids <;> simp [h1, h2]

theorem deleteLoop_ok (l : List HistoryItem) (w : World)
    (hok : (deleteLoop l w).1 = Except.ok ()) :
    (deleteLoop l w).2.store =
      w.store.filter (fun x => decide (x.id ∉ l.map HistoryItem.id)) := by
  induction l generalizing w with
  | nil => simp [deleteLoop]
  | cons item rest ih =>
    cases hres : (deleteHistoryItem item.id w).1 with
    | error e =>
      rw [deleteLoop_cons_error item rest w e hres] at hok
      simp at hok
    | ok u =>
      rw [deleteLoop_cons_ok item rest w hres] at hok ⊢
      rw [ih _ hok, (deleteHistoryItem_ok item.id w hres).1, filter_storeDelete, List.map_cons]

theorem deleteLoop_failure (k : Nat) (l : List HistoryItem) (w : World) (c : Handle)
    (e : DOMException) (rest : List (Option DOMException)) (hdb : w.db = some c)
    (hf : w.faults = List.replicate k none ++ some e :: rest) (hk : k < l.length) :
    deleteLoop l w =
      (Except.error e,
        { w with
          store := w.store.filter (fun x => decide (x.id ∉ (l.take k).map HistoryItem.id)),
          faults := rest }) := by
  induction k generalizing l w with
  | zero =>
    cases l with
    | nil => simp at hk
    | cons item l1 =>
      have hd : deleteHistoryItem item.id w = (Except.error e, { w with faults := rest }) := by
        rw [deleteHistoryItem_eq]
        exact transact_failure _ _ w c e rest hdb (by simpa using hf)
      rw [deleteLoop_cons_error item l1 w e (by rw [hd]), hd]
      simp
  | succ k ih =>
    cases l with
    | nil => simp at hk
    | cons item l1 =>
      have hd : deleteHistoryItem item.id w =
          (Except.ok (), { w with store := storeDelete item.id w.store,
                                  faults := List.replicate k none ++ some e :: rest }) := by
        rw [deleteHistoryItem_eq]
        exact transact_success _ _ w c _ hdb (by rw [hf]; rfl)
      have hrest := ih l1
        { w with store := storeDelete item.id w.store,
                 faults := List.replicate k none ++ some e :: rest }
        hdb rfl (by simpa using hk)
      rw [deleteLoop_cons_ok item l1 w (by rw [hd]), hd, hrest]
      simp only [filter_storeDelete, List.take_succ_cons, List.map_cons]

/-! ## `slice` -/

theorem sliceStart_of_nonneg (len : Nat) (m : Int) (h0 : 0 ≤ m) (hlt : m < (len : Int)) :
    sliceStart len m = m.toNat := by
  unfold sliceStart
  rw [if_neg (by omega), min_eq_left (by omega)]

theorem sliceStart_neg (len k : Nat) (hk : 1 ≤ k) : sliceStart len (-(k : Int)) = len - k := by
  unfold sliceStart
  rw [if_pos (by omega)]
  omega

theorem sliceStart_of_le (len : Nat) (m : Int) (hle : (len : Int) ≤ m) :
    sliceStart len m = len := by
  unfold sliceStart
  rw [if_neg (by omega), min_eq_right hle]
  rfl

/-! ## What a trim keeps -/

theorem filter_drop_ids (S store : List HistoryItem) (k : Nat) (hperm : S.Perm store)
    (hnd : (S.map HistoryItem.id).Nodup) :
    (store.filter (fun x => decide (x.id ∉ (S.drop k).map HistoryItem.id))).Perm (S.take k) := by
  refine (hperm.symm.filter _).trans ?_
  have hsplit : S = S.take k ++ S.drop k := (List.take_append_drop k S).symm
  rw [hsplit, List.map_append, List.nodup_append] at hnd
  obtain ⟨_, _, hdisj⟩ := hnd
  have hkeep : (S.take k).filter (fun x => decide (x.id ∉ (S.drop k).map HistoryItem.id)) =
      S.take k := by
    rw [List.filter_eq_self]
    intro x hx
    simp only [decide_eq_true_eq]
    intro hmem
    exact hdisj (List.mem_map_of_mem _ hx) hmem
  have hdrop : (S.drop k).filter (fun x => decide (x.id ∉ (S.drop k).map HistoryItem.id)) =
      [] := by
    rw [List.filter_eq_nil_iff]
    intro x hx
    simp only [decide_eq_true_eq, not_not]
    exact List.mem_map_of_mem _ hx
  have hfilter : S.filter (fun x => decide (x.id ∉ (S.drop k).map HistoryItem.id)) =
      S.take k := by
    have happ := @List.filter_append HistoryItem
      (fun x : HistoryItem => decide (x.id ∉ (S.drop k).map HistoryItem.id)) (S.take k) (S.drop k)
    rw [List.take_append_drop] at happ
    rw [happ, hkeep, hdrop, List.append_nil]
  rw [hfilter]

theorem mem_filter_ids (store : Store) (hnd : (store.map HistoryItem.id).Nodup)
    (D : List HistoryItem) (hD : ∀ y ∈ D, y ∈ store) (x : HistoryItem) (hx : x ∈ store) :
    x ∈ store.filter (fun x => decide (x.id ∉ D.map HistoryItem.id)) ↔ x ∉ D := by
  rw [List.mem_filter]
  simp only [decide_eq_true_eq]
  constructor
  · rintro ⟨_, hid⟩ hxD
    exact hid (List.mem_map_of_mem _ hxD)
  · intro hxD
    refine ⟨hx, fun hid => hxD ?_⟩
    rcases List.mem_map.1 hid with ⟨y, hy, hyid⟩
    have hxy : y = x := List.inj_on_of_nodup_map hnd (hD y hy) hx hyid
    rw [← hxy]
    exact hy

/-! ## `trimHistory` -/

theorem trimHistory_of_getAll_ok (m : Int) (w : World) (items : List HistoryItem)
    (h : (getAllHistory w).1 = Except.ok items) :
    trimHistory m w =
      if (items.length : Int) ≤ m then (Except.ok (), (getAllHistory w).2)
      else deleteLoop (arraySlice items m) (getAllHistory w).2 := by
  unfold trimHistory
  revert h
  generalize getAllHistory w = r
  obtain ⟨res, w1⟩ := r
  intro h
  simp only at h
  subst h
  rfl

theorem trimHistory_of_getAll_error (m : Int) (w : World) (e : DOMException)
    (h : (getAllHistory w).1 = Except.error e) :
    trimHistory m w = (Except.error e, (getAllHistory w).2) := by
  unfold trimHistory
  revert h
  generalize getAllHistory w = r
  obtain ⟨res, w1⟩ := r
  intro h
  simp only at h
  subst h
  rfl

theorem trimHistory_faultFree (m : Int) (w : World) (hw : faultFree w) :
    (trimHistory m w).1 = Except.ok () ∧ faultFree (trimHistory m w).2 := by
  have h := transact_faultFree (fun s => arraySort compareFn (storeGetAll s)) (fun s => s) w hw
  rw [← getAllHistory_eq] at h
  rw [trimHistory_of_getAll_ok m w _ h.1]
  split
  · exact ⟨rfl, h.2⟩
  · exact deleteLoop_faultFree _ _ h.2

theorem trimHistory_ok (m : Int) (w : World) (hok : (trimHistory m w).1 = Except.ok ()) :
    (trimHistory m w).2.store =
      if (w.store.length : Int) ≤ m then w.store
      else w.store.filter (fun x =>
        decide (x.id ∉ (arraySlice (arraySort compareFn w.store) m).map HistoryItem.id)) := by
  cases hres : (getAllHistory w).1 with
  | error e =>
    rw [trimHistory_of_getAll_error m w e hres] at hok
    simp at hok
  | ok items =>
    obtain ⟨hitems, hstore, _⟩ := getAllHistory_ok w items hres
    have hlen : items.length = w.store.length := by
      rw [hitems]
      exact (arraySort_perm compareFn w.store).length_eq
    rw [trimHistory_of_getAll_ok m w items hres] at hok ⊢
    rw [hlen] at hok ⊢
    by_cases hle : (w.store.length : Int) ≤ m
    · rw [if_pos hle, if_pos hle]
      exact hstore
    · rw [if_neg hle] at hok ⊢
      rw [if_neg hle, deleteLoop_ok _ _ hok, hstore, hitems]

theorem trimHistory_kept (m : Int) (w : World) (hwf : keysAscending w.store)
    (hok : (trimHistory m w).1 = Except.ok ()) (hgt : ¬ (w.store.length : Int) ≤ m) :
    (trimHistory m w).2.store.Perm
        ((arraySort compareFn w.store).take (sliceStart w.store.length m)) ∧
      ∀ x ∈ w.store, (x ∉ (trimHistory m w).2.store ↔
        x ∈ (arraySort compareFn w.store).drop (sliceStart w.store.length m)) := by
  have hperm := arraySort_perm compareFn w.store
  have hnd := keysAscending_nodup w.store hwf
  have hndS : ((arraySort compareFn w.store).map HistoryItem.id).Nodup :=
    ((hperm.map HistoryItem.id).nodup_iff).2 hnd
  have hstore := trimHistory_ok m w hok
  rw [if_neg hgt] at hstore
  unfold arraySlice at hstore
  rw [hperm.length_eq] at hstore
  rw [hstore]
  refine ⟨filter_drop_ids _ _ _ hperm hndS, fun x hx => ?_⟩
  rw [mem_filter_ids w.store hnd _ (fun y hy => hperm.mem_iff.1 (List.mem_of_mem_drop hy)) x hx]
  exact not_not

theorem keysAscending_preserved (w : World) (hwf : keysAscending w.store) :
    (∀ item, keysAscending (saveHistoryItem item w).2.store) ∧
    (∀ id, keysAscending (deleteHistoryItem id w).2.store) ∧
    keysAscending (clearAllHistory w).2.store ∧
    keysAscending (getAllHistory w).2.store ∧
    keysAscending (getHistoryCount w).2.store ∧
    (∀ m, keysAscending (trimHistory m w).2.store) := by
  have key : ∀ {α : Type} (f : Store → α) (g : Store → Store),
      keysAscending (g w.store) → keysAscending (transact f g w).2.store := by
    intro α f g hg
    cases hres : (transact f g w).1 with
    | error e => rw [transact_error f g w e hres]; exact hwf
    | ok a => rw [(transact_ok f g w a hres).2.1]; exact hg
  have hdel : ∀ (l : List HistoryItem) (v : World), keysAscending v.store →
      keysAscending (deleteLoop l v).2.store := by
    intro l
    induction l with
    | nil => intro v hv; exact hv
    | cons item rest ih =>
      intro v hv
      have hstep : keysAscending (deleteHistoryItem item.id v).2.store := by
        cases hres : (deleteHistoryItem item.id v).1 with
        | error e => rw [deleteHistoryItem_error item.id v e hres]; exact hv
        | ok u =>
          rw [(deleteHistoryItem_ok item.id v hres).1]
          exact storeDelete_keysAscending _ _ hv
      cases hres : (deleteHistoryItem item.id v).1 with
      | error e => rw [deleteLoop_cons_error item rest v e hres]; exact hstep
      | ok u => rw [deleteLoop_cons_ok item rest v hres]; exact ih _ hstep
  have hget : keysAscending (getAllHistory w).2.store := by
    rw [getAllHistory_eq]; exact key _ _ hwf
  refine ⟨fun item => ?_, fun id => ?_, ?_, hget, ?_, fun m => ?_⟩
  · rw [saveHistoryItem_eq]; exact key _ _ (storePut_keysAscending item _ hwf)
  · rw [deleteHistoryItem_eq]; exact key _ _ (storeDelete_keysAscending id _ hwf)
  · rw [clearAllHistory_eq]; exact key _ _ (by simp [storeClear, keysAscending])
  · rw [getHistoryCount_eq]; exact key _ _ hwf
  · cases hres : (getAllHistory w).1 with
    | error e => rw [trimHistory_of_getAll_error m w e hres]; exact hget
    | ok items =>
      rw [trimHistory_of_getAll_ok m w items hres]
      split
      · exact hget
      · exact hdel _ _ hget

/-- C1, amended: after a `trimHistory(maxCount)` that resolves, for every integer
`maxCount`: if `maxCount` is at least the prior count the store is unchanged; if it is
below the prior count, every remaining item was in the store before and has a
timestamp at least that of every deleted item, and when `maxCount` is moreover
non-negative the store holds exactly `maxCount` items.  With an engine that reports
no error the call resolves. -/
theorem trimHistory_keeps_newest (w : World) (maxCount : Int) (hwf : keysAscending w.store) :
    (faultFree w → (trimHistory maxCount w).1 = Except.ok ()) ∧
    ((trimHistory maxCount w).1 = Except.ok () →
      ((storeCount w.store : Int) ≤ maxCount →
        (trimHistory maxCount w).2.store = w.store) ∧
      (maxCount < (storeCount w.store : Int) →
        (0 ≤ maxCount → (storeCount (trimHistory maxCount w).2.store : Int) = maxCount) ∧
        (∀ x ∈ (trimHistory maxCount w).2.store, x ∈ w.store) ∧
        (∀ x ∈ (trimHistory maxCount w).2.store, ∀ y ∈ w.store,
          y ∉ (trimHistory maxCount w).2.store → y.timestamp ≤ x.timestamp))) := by
  unfold storeCount
  refine ⟨fun hw => (trimHistory_faultFree maxCount w hw).1, fun hok => ⟨fun hle => ?_, fun hlt => ?_⟩⟩
  · rw [trimHistory_ok maxCount w hok, if_pos hle]
  · have hgt : ¬ (w.store.length : Int) ≤ maxCount := by omega
    obtain ⟨hkept, hdel⟩ := trimHistory_kept maxCount w hwf hok hgt
    have hperm := arraySort_perm compareFn w.store
    refine ⟨fun h0 => ?_, fun x hx => ?_, fun x hx y hy hyd => ?_⟩
    · rw [hkept.length_eq, List.length_take, hperm.length_eq,
        sliceStart_of_nonneg _ _ h0 hlt]
      omega
    · exact hperm.mem_iff.1 (List.mem_of_mem_take (hkept.mem_iff.1 hx))
    · have hx1 := hkept.mem_iff.1 hx
      have hy1 := (hdel y hy).1 hyd
      have hdesc := arraySort_descending w.store
      rw [← List.take_append_drop (sliceStart w.store.length maxCount)
        (arraySort compareFn w.store), List.pairwise_append] at hdesc
      exact hdesc.2.2 x hx1 y hy1

theorem trimHistory_keeps_newest_witness :
    (trimHistory 2 (freshWorld [⟨1, 5, 0⟩, ⟨2, 3, 0⟩, ⟨3, 9, 0⟩] [])).1 = Except.ok () ∧
      ((storeCount (trimHistory 2
        (freshWorld [⟨1, 5, 0⟩, ⟨2, 3, 0⟩, ⟨3, 9, 0⟩] [])).2.store : Int) = 2) :=
  ⟨(trimHistory_keeps_newest (freshWorld [⟨1, 5, 0⟩, ⟨2, 3, 0⟩, ⟨3, 9, 0⟩] []) 2
      (by decide)).1 (by decide),
   (((trimHistory_keeps_newest (freshWorld [⟨1, 5, 0⟩, ⟨2, 3, 0⟩, ⟨3, 9, 0⟩] []) 2
      (by decide)).2 rfl).2 (by decide)).1 (by decide)⟩

/-- C1 as stated fails for a negative `maxCount`: on a store of three items
`trimHistory(-1)` resolves, `-1` is below the prior count 3, and the store then
holds two items, not `-1`. -/
theorem trimHistory_negative_not_maxCount :
    keysAscending (freshWorld [⟨1, 5, 0⟩, ⟨2, 3, 0⟩, ⟨3, 9, 0⟩] []).store ∧
      (trimHistory (-1) (freshWorld [⟨1, 5, 0⟩, ⟨2, 3, 0⟩, ⟨3, 9, 0⟩] [])).1 = Except.ok () ∧
      (-1 : Int) < (storeCount (freshWorld [⟨1, 5, 0⟩, ⟨2, 3, 0⟩, ⟨3, 9, 0⟩] []).store : Int) ∧
      (trimHistory (-1) (freshWorld [⟨1, 5, 0⟩, ⟨2, 3, 0⟩, ⟨3, 9, 0⟩] [])).2.store =
        [⟨1, 5, 0⟩, ⟨3, 9, 0⟩] ∧
      (storeCount (trimHistory (-1)
        (freshWorld [⟨1, 5, 0⟩, ⟨2, 3, 0⟩, ⟨3, 9, 0⟩] [])).2.store : Int) ≠ -1 :=
  ⟨by decide, rfl, by decide, rfl, by decide⟩

/-- C10: a `trimHistory(maxCount)` that resolves has deleted exactly the items of
`items.slice(maxCount)`, `items` being the timestamp-descending list.  For
`maxCount = -k` with `1 ≤ k` the guard `items.length <= maxCount` is false; the call
resolves when the engine reports no error; if `k` is at most the count it deletes
exactly the last `k` items of the list, keeping the `count - k` first (newest) ones;
if `k` exceeds the count it deletes every item. -/
theorem trimHistory_slice_semantics (w : World) (hwf : keysAscending w.store) :
    (∀ maxCount : Int, (trimHistory maxCount w).1 = Except.ok () →
      ∀ x ∈ w.store, (x ∉ (trimHistory maxCount w).2.store ↔
        x ∈ arraySlice (arraySort compareFn w.store) maxCount)) ∧
    (∀ k : Nat, 1 ≤ k →
      ¬ (((arraySort compareFn w.store).length : Int) ≤ -(k : Int)) ∧
      (faultFree w → (trimHistory (-(k : Int)) w).1 = Except.ok ()) ∧
      ((trimHistory (-(k : Int)) w).1 = Except.ok () →
        (k ≤ storeCount w.store →
          (∀ x ∈ w.store, (x ∉ (trimHistory (-(k : Int)) w).2.store ↔
            x ∈ (arraySort compareFn w.store).drop (storeCount w.store - k))) ∧
          ((arraySort compareFn w.store).drop (storeCount w.store - k)).length = k ∧
          (trimHistory (-(k : Int)) w).2.store.Perm
            ((arraySort compareFn w.store).take (storeCount w.store - k)) ∧
          storeCount (trimHistory (-(k : Int)) w).2.store = storeCount w.store - k) ∧
        (storeCount w.store < k → (trimHistory (-(k : Int)) w).2.store = []))) := by
  unfold storeCount
  have hperm := arraySort_perm compareFn w.store
  refine ⟨fun m hok x hx => ?_, fun k hk => ⟨by omega, fun hw => ?_, fun hok => ?_⟩⟩
  · by_cases hle : (w.store.length : Int) ≤ m
    · have hstore := trimHistory_ok m w hok
      rw [if_pos hle] at hstore
      unfold arraySlice
      rw [hstore, hperm.length_eq, sliceStart_of_le _ _ hle, ← hperm.length_eq,
        List.drop_length]
      simp [hx]
    · have h := (trimHistory_kept m w hwf hok hle).2 x hx
      unfold arraySlice
      rw [hperm.length_eq]
      exact h
  · exact (trimHistory_faultFree _ w hw).1
  · have hgt : ¬ (w.store.length : Int) ≤ -(k : Int) := by omega
    obtain ⟨hkept, hdel⟩ := trimHistory_kept _ w hwf hok hgt
    rw [sliceStart_neg _ _ hk] at hkept hdel
    refine ⟨fun hle => ⟨hdel, ?_, hkept, ?_⟩, fun hlt => ?_⟩
    · rw [List.length_drop, hperm.length_eq]
      omega
    · rw [hkept.length_eq, List.length_take, hperm.length_eq]
      omega
    · have h0 : w.store.length - k = 0 := by omega
      rw [h0, List.take_zero] at hkept
      exact hkept.eq_nil

theorem trimHistory_slice_semantics_witness :
    (trimHistory (-((5 : Nat) : Int))
        (freshWorld [⟨1, 5, 0⟩, ⟨2, 3, 0⟩, ⟨3, 9, 0⟩] [])).2.store = [] ∧
      (trimHistory (-((2 : Nat) : Int))
        (freshWorld [⟨1, 5, 0⟩, ⟨2, 3, 0⟩, ⟨3, 9, 0⟩] [])).2.store.Perm
        ((arraySort compareFn (freshWorld [⟨1, 5, 0⟩, ⟨2, 3, 0⟩, ⟨3, 9, 0⟩] []).store).take
          (storeCount (freshWorld [⟨1, 5, 0⟩, ⟨2, 3, 0⟩, ⟨3, 9, 0⟩] []).store - 2)) :=
  ⟨((((trimHistory_slice_semantics (freshWorld [⟨1, 5, 0⟩, ⟨2, 3, 0⟩, ⟨3, 9, 0⟩] [])
      (by decide)).2 5 (by decide)).2.2) rfl).2 (by decide),
   (((((trimHistory_slice_semantics (freshWorld [⟨1, 5, 0⟩, ⟨2, 3, 0⟩, ⟨3, 9, 0⟩] [])
      (by decide)).2 2 (by decide)).2.2) rfl).1 (by decide)).2.2.1⟩

/-- C7: let `getAllHistory` resolve with `items`, and let the engine then answer `k`
requests with success and the next one with error `e`, where the excess tail
`items.slice(maxCount)` has more than `k` items.  Then `trimHistory(maxCount)` rejects
with `e`; the store is the original one without the first `k` items of the excess
tail, and those are the only items missing; the engine's answers after the failing one
are left unconsumed, so no later delete was issued, and the rest of the excess tail is
still stored; every stored item was stored before; and every item before the excess
tail (the `maxCount` newest, for `maxCount ≥ 0`) is still stored. -/
theorem trimHistory_delete_failure (w : World) (maxCount : Int) (items : List HistoryItem)
    (k : Nat) (e : DOMException) (rest : List (Option DOMException))
    (hwf : keysAscending w.store)
    (hget : (getAllHistory w).1 = Except.ok items)
    (hfaults : (getAllHistory w).2.faults = List.replicate k none ++ some e :: rest)
    (hexcess : k < (arraySlice items maxCount).length) :
    (trimHistory maxCount w).1 = Except.error e ∧
    (trimHistory maxCount w).2.store =
      w.store.filter (fun x =>
        decide (x.id ∉ ((arraySlice items maxCount).take k).map HistoryItem.id)) ∧
    (∀ x ∈ w.store, (x ∉ (trimHistory maxCount w).2.store ↔
      x ∈ (arraySlice items maxCount).take k)) ∧
    (trimHistory maxCount w).2.faults = rest ∧
    (∀ x ∈ (arraySlice items maxCount).drop k, x ∈ (trimHistory maxCount w).2.store) ∧
    (∀ x ∈ (trimHistory maxCount w).2.store, x ∈ w.store) ∧
    (∀ x ∈ items.take (sliceStart items.length maxCount),
      x ∈ (trimHistory maxCount w).2.store) ∧
    (0 ≤ maxCount → ∀ x ∈ items.take maxCount.toNat,
      x ∈ (trimHistory maxCount w).2.store) := by
  obtain ⟨hitems, hstore, c, hdb⟩ := getAllHistory_ok w items hget
  have hperm : items.Perm w.store := by rw [hitems]; exact arraySort_perm compareFn w.store
  have hnd := keysAscending_nodup w.store hwf
  have hndI : items.Nodup :=
    hperm.nodup_iff.2 (List.Nodup.of_map _ hnd)
  have hguard : ¬ (items.length : Int) ≤ maxCount := by
    intro hle
    unfold arraySlice at hexcess
    rw [sliceStart_of_le _ _ hle, List.drop_length] at hexcess
    simp at hexcess
  have htrim : trimHistory maxCount w =
      (Except.error e,
        { (getAllHistory w).2 with
          store := w.store.filter (fun x =>
            decide (x.id ∉ ((arraySlice items maxCount).take k).map HistoryItem.id)),
          faults := rest }) := by
    rw [trimHistory_of_getAll_ok maxCount w items hget, if_neg hguard,
      deleteLoop_failure k _ _ c e rest hdb hfaults hexcess, hstore]
  have hsub : ∀ y ∈ (arraySlice items maxCount).take k, y ∈ w.store := fun y hy =>
    hperm.mem_iff.1 (List.mem_of_mem_drop (List.mem_of_mem_take hy))
  have hmem : ∀ x ∈ w.store, (x ∈ (trimHistory maxCount w).2.store ↔
      x ∉ (arraySlice items maxCount).take k) := by
    intro x hx
    rw [htrim]
    exact mem_filter_ids w.store hnd _ hsub x hx
  have hnewest : ∀ x ∈ items.take (sliceStart items.length maxCount),
      x ∈ (trimHistory maxCount w).2.store := by
    intro x hx
    rw [hmem x (hperm.mem_iff.1 (List.mem_of_mem_take hx))]
    intro hxd
    exact List.disjoint_take_drop hndI (le_refl _) hx (List.mem_of_mem_take hxd)
  refine ⟨by rw [htrim], by rw [htrim], fun x hx => ?_, by rw [htrim], fun x hx => ?_,
    fun x hx => ?_, hnewest, fun h0 x hx => ?_⟩
  · rw [hmem x hx]
    exact not_not
  · rw [hmem x (hperm.mem_iff.1 (List.mem_of_mem_drop (List.mem_of_mem_drop hx)))]
    intro hxt
    have hndS : (arraySlice items maxCount).Nodup := hndI.sublist (List.drop_sublist _ _)
    exact List.disjoint_take_drop hndS (le_refl _) hxt hx
  · rw [htrim] at hx
    exact (List.mem_filter.1 hx).1
  · apply hnewest
    rw [sliceStart_of_nonneg _ _ h0 (by omega)]
    exact hx

theorem trimHistory_delete_failure_witness :
    (trimHistory 1
        (freshWorld [⟨1, 5, 0⟩, ⟨2, 3, 0⟩, ⟨3, 9, 0⟩, ⟨4, 4, 0⟩] [none, none, none, some 7, none])).1 =
        Except.error 7 ∧
      (trimHistory 1
        (freshWorld [⟨1, 5, 0⟩, ⟨2, 3, 0⟩, ⟨3, 9, 0⟩, ⟨4, 4, 0⟩] [none, none, none, some 7, none])).2.faults =
        [none] :=
  ⟨(trimHistory_delete_failure
      (freshWorld [⟨1, 5, 0⟩, ⟨2, 3, 0⟩, ⟨3, 9, 0⟩, ⟨4, 4, 0⟩] [none, none, none, some 7, none])
      1 [⟨3, 9, 0⟩, ⟨1, 5, 0⟩, ⟨4, 4, 0⟩, ⟨2, 3, 0⟩] 1 7 [none]
      (by decide) rfl rfl (by decide)).1,
   (trimHistory_delete_failure
      (freshWorld [⟨1, 5, 0⟩, ⟨2, 3, 0⟩, ⟨3, 9, 0⟩, ⟨4, 4, 0⟩] [none, none, none, some 7, none])
      1 [⟨3, 9, 0⟩, ⟨1, 5, 0⟩, ⟨4, 4, 0⟩, ⟨2, 3, 0⟩] 1 7 [none]
      (by decide) rfl rfl (by decide)).2.2.2.1⟩

/-! ## The scenario of three saves -/

theorem storePut_perm (item : HistoryItem) (s : Store)
    (hnew : item.id ∉ s.map HistoryItem.id) : (storePut item s).Perm (item :: s) := by
  induction s with
  | nil => exact List.Perm.refl _
  | cons x xs ih =>
    rw [List.map_cons, List.mem_cons, not_or] at hnew
    unfold storePut
    split
    · exact List.Perm.refl _
    · rw [if_neg hnew.1]
      exact ((ih hnew.2).cons x).trans (List.Perm.swap item x xs)

theorem saveLoop_perm (items : List HistoryItem) (w : World)
    (hok : (saveLoop items w).1 = Except.ok ())
    (hnd : (items.map HistoryItem.id).Nodup)
    (hdisj : ∀ i ∈ items.map HistoryItem.id, i ∉ w.store.map HistoryItem.id) :
    (saveLoop items w).2.store.Perm (items ++ w.store) := by
  induction items generalizing w with
  | nil => exact List.Perm.refl _
  | cons item rest ih =>
    cases hres : (saveHistoryItem item w).1 with
    | error e =>
      rw [saveLoop_cons_error item rest w e hres] at hok
      simp at hok
    | ok u =>
      rw [saveLoop_cons_ok item rest w hres] at hok ⊢
      have hs := (saveHistoryItem_ok item w hres).1
      rw [List.map_cons, List.nodup_cons] at hnd
      have hnew : item.id ∉ w.store.map HistoryItem.id :=
        hdisj item.id (by simp)
      have hput := storePut_perm item w.store hnew
      have hdisj1 : ∀ i ∈ rest.map HistoryItem.id,
          i ∉ (saveHistoryItem item w).2.store.map HistoryItem.id := by
        intro i hi
        rw [hs, mem_storePut, not_or]
        refine ⟨fun h => hnd.1 (h ▸ hi), hdisj i ?_⟩
        rw [List.map_cons]
        exact List.mem_cons_of_mem _ hi
      refine (ih _ hok hnd.2 hdisj1).trans ?_
      rw [hs]
      refine (List.Perm.append_left rest hput).trans ?_
      exact List.perm_middle

/-- C9: from an empty store and with an engine that reports no error, saving `a`
(timestamp 1), `b` (timestamp 2) and `c` (timestamp 3), of pairwise distinct ids, in
any order resolves; `getAllHistory` then resolves with `[c, b, a]`; a following
`trimHistory(2)` resolves and leaves exactly `c` and `b` in the store; and
`getHistoryCount` then resolves with 2. -/
theorem scenario_save_list_trim (a b c : HistoryItem) (order : List HistoryItem) (w : World)
    (ha : a.timestamp = 1) (hb : b.timestamp = 2) (hc : c.timestamp = 3)
    (hab : a.id ≠ b.id) (hac : a.id ≠ c.id) (hbc : b.id ≠ c.id)
    (horder : order.Perm [a, b, c]) (hempty : w.store = []) (hw : faultFree w) :
    (saveLoop order w).1 = Except.ok () ∧
    (getAllHistory (saveLoop order w).2).1 = Except.ok [c, b, a] ∧
    (trimHistory 2 (getAllHistory (saveLoop order w).2).2).1 = Except.ok () ∧
    (trimHistory 2 (getAllHistory (saveLoop order w).2).2).2.store.Perm [c, b] ∧
    (getHistoryCount (trimHistory 2 (getAllHistory (saveLoop order w).2).2).2).1 =
      Except.ok 2 := by
  have hwf0 : keysAscending w.store := by rw [hempty]; simp [keysAscending]
  obtain ⟨hsave, hw1⟩ := saveLoop_faultFree order w hw
  have hwf1 := (saveLoop_ok order w hsave hwf0).1
  have hnd : (order.map HistoryItem.id).Nodup := by
    rw [(horder.map HistoryItem.id).nodup_iff]
    simp [hab, hac, hbc]
  have hstore1 : (saveLoop order w).2.store.Perm [a, b, c] := by
    have h := saveLoop_perm order w hsave hnd (by rw [hempty]; simp)
    rw [hempty, List.append_nil] at h
    exact h.trans horder
  have hget := transact_faultFree (fun s => arraySort compareFn (storeGetAll s)) (fun s => s)
    _ hw1
  rw [← getAllHistory_eq] at hget
  have hstore2 := (getAllHistory_ok _ _ hget.1).2.1
  obtain ⟨htrim, hw3⟩ := trimHistory_faultFree 2 _ hget.2
  have hcount := (transact_faultFree storeCount (fun s => s) _ hw3).1
  rw [← getHistoryCount_eq] at hcount
  have hlen : (saveLoop order w).2.store.length = 3 := hstore1.length_eq
  have hsorted : arraySort compareFn (saveLoop order w).2.store = [c, b, a] := by
    have hperm := (arraySort_perm compareFn (saveLoop order w).2.store).trans hstore1
    have hdesc := arraySort_descending (saveLoop order w).2.store
    revert hperm hdesc
    generalize arraySort compareFn (saveLoop order w).2.store = S
    intro hperm hdesc
    have hts : S.map HistoryItem.timestamp = [3, 2, 1] := by
      haveI : IsAntisymm Int (fun x y => y ≤ x) := ⟨fun _ _ h1 h2 => le_antisymm h2 h1⟩
      refine List.eq_of_perm_of_sorted (r := fun x y : Int => y ≤ x) ?_ ?_ ?_
      · refine (hperm.map HistoryItem.timestamp).trans ?_
        simp only [List.map_cons, List.map_nil, ha, hb, hc]
        exact List.reverse_perm ([3, 2, 1] : List Int)
      · exact List.pairwise_map.2 hdesc
      · decide
    have hmem : ∀ x ∈ S, x = a ∨ x = b ∨ x = c := by
      intro x hx
      simpa using hperm.mem_iff.1 hx
    rcases S with _ | ⟨x, _ | ⟨y, _ | ⟨z, _ | ⟨u, t⟩⟩⟩⟩ <;> simp at hts
    obtain ⟨hx, hy, hz⟩ := hts
    have hxc : x = c := by
      rcases hmem x (by simp) with h | h | h <;> subst h <;> first | rfl | omega
    have hyb : y = b := by
      rcases hmem y (by simp) with h | h | h <;> subst h <;> first | rfl | omega
    have hza : z = a := by
      rcases hmem z (by simp) with h | h | h <;> subst h <;> first | rfl | omega
    rw [hxc, hyb, hza]
  have hgt : ¬ ((getAllHistory (saveLoop order w).2).2.store.length : Int) ≤ 2 := by
    rw [hstore2, hlen]
    omega
  have hkept := (trimHistory_kept 2 _ (by rw [hstore2]; exact hwf1) htrim hgt).1
  rw [hstore2, hsorted, hlen] at hkept
  have hkept2 : (trimHistory 2 (getAllHistory (saveLoop order w).2).2).2.store.Perm [c, b] :=
    hkept
  refine ⟨hsave, ?_, htrim, hkept2, ?_⟩
  · rw [hget.1]
    exact congrArg Except.ok hsorted
  · rw [hcount]
    unfold storeCount
    rw [hkept2.length_eq]
    rfl

theorem scenario_save_list_trim_witness :
    (getAllHistory (saveLoop [⟨7, 2, 0⟩, ⟨9, 3, 0⟩, ⟨4, 1, 0⟩] (freshWorld [] [])).2).1 =
        Except.ok [⟨9, 3, 0⟩, ⟨7, 2, 0⟩, ⟨4, 1, 0⟩] ∧
      (getHistoryCount (trimHistory 2 (getAllHistory
        (saveLoop [⟨7, 2, 0⟩, ⟨9, 3, 0⟩, ⟨4, 1, 0⟩] (freshWorld [] [])).2).2).2).1 =
        Except.ok 2 :=
  ⟨(scenario_save_list_trim ⟨4, 1, 0⟩ ⟨7, 2, 0⟩ ⟨9, 3, 0⟩ [⟨7, 2, 0⟩, ⟨9, 3, 0⟩, ⟨4, 1, 0⟩]
      (freshWorld [] []) rfl rfl rfl (by decide) (by decide) (by decide)
      (by decide) rfl (by decide)).2.1,
   (scenario_save_list_trim ⟨4, 1, 0⟩ ⟨7, 2, 0⟩ ⟨9, 3, 0⟩ [⟨7, 2, 0⟩, ⟨9, 3, 0⟩, ⟨4, 1, 0⟩]
      (freshWorld [] []) rfl rfl rfl (by decide) (by decide) (by decide)
      (by decide) rfl (by decide)).2.2.2.2⟩

/-! ## Interleaved `initDB` calls -/

theorem initDBCall_of_none (w : World) (h : w.db = none) :
    initDBCall w = (InitPromise.awaiting w.opened, { w with opened := w.opened + 1 }) := by
  unfold initDBCall
  rw [h]

theorem initDBCall_of_some (w : World) (c : Handle) (h : w.db = some c) :
    initDBCall w = (InitPromise.resolved c, w) := by
  unfold initDBCall
  rw [h]

theorem runEvents_cons (w : World) (ev : Event) (evs : List Event) :
    runEvents w (ev :: evs) = runEvents (stepEvent w ev) evs := rfl

theorem calls_while_null (evs : List Event) (w : World) (hdb : w.db = none)
    (hcalls : ∀ ev ∈ evs, ev = Event.call) :
    (runEvents w evs).opened = w.opened + evs.length ∧
      (runEvents w evs).db = none ∧
      callPromises w evs =
        (List.range evs.length).map (fun i => InitPromise.awaiting (w.opened + i)) := by
  induction evs generalizing w with
  | nil => exact ⟨rfl, hdb, rfl⟩
  | cons ev rest ih =>
    have hev : ev = Event.call := hcalls ev (List.mem_cons_self _ _)
    subst hev
    have hstep := initDBCall_of_none w hdb
    obtain ⟨h1, h2, h3⟩ := ih { w with opened := w.opened + 1 } hdb
      (fun ev hev => hcalls ev (List.mem_cons_of_mem _ hev))
    rw [runEvents_cons, callPromises, stepEvent, hstep]
    refine ⟨?_, h2, ?_⟩
    · rw [h1, List.length_cons]
      simp only
      omega
    · rw [h3, List.length_cons, List.range_succ_eq_map, List.map_cons, List.map_map]
      simp only [Nat.add_zero, List.cons.injEq, true_and]
      apply List.map_congr_left
      intro i _
      simp only [Function.comp_apply, InitPromise.awaiting.injEq]
      omega

theorem calls_after_success (evs : List Event) (w : World) (hdb : w.db ≠ none) :
    (runEvents w evs).opened = w.opened ∧
      (runEvents w evs).db ≠ none ∧
      ∀ p ∈ callPromises w evs, ∃ c, p = InitPromise.resolved c := by
  induction evs generalizing w with
  | nil => exact ⟨rfl, hdb, fun p hp => by simp [callPromises] at hp⟩
  | cons ev rest ih =>
    cases ev with
    | call =>
      obtain ⟨c, hc⟩ : ∃ c, w.db = some c := by
        cases hc : w.db with
        | none => exact absurd hc hdb
        | some c => exact ⟨c, rfl⟩
      have hstep := initDBCall_of_some w c hc
      obtain ⟨h1, h2, h3⟩ := ih w hdb
      rw [runEvents_cons, callPromises, stepEvent, hstep]
      refine ⟨h1, h2, fun p hp => ?_⟩
      rcases List.mem_cons.1 hp with rfl | hp
      · exact ⟨c, rfl⟩
      · exact h3 p hp
    | success req =>
      obtain ⟨h1, h2, h3⟩ := ih (openSuccess req w).2 (by simp [openSuccess])
      rw [runEvents_cons, callPromises, stepEvent]
      exact ⟨h1, h2, h3⟩

/-- C6, amended: every `initDB` call made while `db` is still null issues an open
request of its own and awaits that request: `n` calls before the first open-success
raise the number of open requests by `n`, the `i`-th of them awaiting request
`opened + i`.  Once `db` has been set, no call of any later interleaving of calls and
open-success events opens anything, each such call is resolved at once, and a call
resolves with the handle `db` holds and leaves everything as it was. -/
theorem initDB_open_requests (w : World) (evs : List Event) :
    (w.db = none → (∀ ev ∈ evs, ev = Event.call) →
      (runEvents w evs).opened = w.opened + evs.length ∧
      (runEvents w evs).db = none ∧
      callPromises w evs =
        (List.range evs.length).map (fun i => InitPromise.awaiting (w.opened + i))) ∧
    (w.db ≠ none →
      (runEvents w evs).opened = w.opened ∧
      (runEvents w evs).db ≠ none ∧
      ∀ p ∈ callPromises w evs, ∃ c, p = InitPromise.resolved c) ∧
    (∀ c, w.db = some c →
      initDBCall w = (InitPromise.resolved c, w) ∧ initDB w = (Except.ok c, w)) :=
  ⟨calls_while_null evs w, calls_after_success evs w,
    fun c hc => ⟨initDBCall_of_some w c hc, initDB_of_db w c hc⟩⟩

theorem initDB_open_requests_witness :
    (runEvents (freshWorld [] []) [Event.call, Event.call, Event.call]).opened = 3 ∧
      (runEvents { db := some 0, opened := 1, store := [], faults := [] }
        [Event.call, Event.success 0, Event.call]).opened = 1 :=
  ⟨((initDB_open_requests (freshWorld [] []) [Event.call, Event.call, Event.call]).1
      rfl (by decide)).1,
   ((initDB_open_requests { db := some 0, opened := 1, store := [], faults := [] }
      [Event.call, Event.success 0, Event.call]).2.1 (by decide)).1⟩

/-- C6 as stated fails: from a world with no connection, two `initDB` calls made
before any open-success both find `db` null and issue two open requests, the second
call awaiting request 1 and not the first call's request 0; when both requests
succeed the two callers have been given two different connections. -/
theorem initDB_concurrent_calls_open_twice :
    (runEvents (freshWorld [] []) [Event.call]).db = none ∧
      (runEvents (freshWorld [] []) [Event.call, Event.call]).opened = 2 ∧
      callPromises (freshWorld [] []) [Event.call, Event.call] =
        [InitPromise.awaiting 0, InitPromise.awaiting 1] ∧
      (openSuccess 0 (runEvents (freshWorld [] []) [Event.call, Event.call])).1 ≠
        (openSuccess 1 (runEvents (freshWorld [] [])
          [Event.call, Event.call, Event.success 0])).1 :=
  ⟨rfl, rfl, rfl, by decide⟩

end HistoryDB
